import Mathlib

/-!
Verification development for the audio engine of `audio_playground.py`
(class `AudioEngine` and the surrounding command handlers in `main`).

The engine is embedded shallowly over exact rationals:

* a stereo frame is a pair of rationals (left, right channel);
* numpy arrays of frames become lists of frames, elementwise array
  operations become `List.map` or maps over `List.range`;
* the sample buffer `self.data` and the echo ring buffer `self._echo_buf`
  become functions from indices to frames (both are fixed-size arrays in
  the source; reads and writes are total on indices);
* Python float `%` (sign of the divisor) becomes `qmod`, and `np.clip`
  becomes `qclip`;
* the three transcendental / DSP library calls of the callback, `np.tanh`,
  `500.0 ** fc` and `scipy.signal.sosfilt`, are taken as parameters of the
  callback: no claim below depends on their values, only on how the
  callback routes data through them.  `scipy.signal.butter(4, norm,
  output="sos")` is modelled by the design frequency `norm` it was invoked
  with (its coefficients are a function of `norm`) together with its fixed
  section count.
-/

/-- One stereo frame: left and right channel sample. -/
abbrev Frame : Type := ℚ × ℚ

/-- Elementwise sum of two frames (numpy `+` on a `(·, 2)` row). -/
def fadd (a b : Frame) : Frame := (a.1 + b.1, a.2 + b.2)

/-- Scalar multiple of a frame (numpy `*` by a scalar). -/
def fsmul (k : ℚ) (a : Frame) : Frame := (k * a.1, k * a.2)

/-- Python float modulo: `x % n = x - n * floor (x / n)`; for `n > 0` the
result lies in `[0, n)`, also for negative `x`. -/
def qmod (x n : ℚ) : ℚ := x - n * ⌊x / n⌋

/-- `np.clip x lo hi = min hi (max lo x)`. -/
def qclip (x lo hi : ℚ) : ℚ := min hi (max lo x)

/-- Fixed working sample rate `SR = 44100`. -/
def srate : ℕ := 44100

/-- First echo tap length `self._d1_len = int(SR * 0.35)`. -/
def d1Len : ℕ := 15435

/-- Second echo tap length `self._d2_len = int(SR * 0.65)`. -/
def d2Len : ℕ := 28665

/-- Echo ring capacity `self._echo_blen = self._d2_len * 3 + BLOCK`. -/
def echoCap : ℕ := 87019

/-- Section count of `butter(4, norm, output="sos")`: a 4th-order design
always yields two second-order sections, independently of `norm`. -/
def butterNs : ℕ := 2

/-- Persistent filter state of the engine: `self._sos` (represented by the
normalized design frequency it was computed from, `none` when no
coefficients exist), `self._zi_l` / `self._zi_r` (per-channel per-section
memory) and `self._last_norm`. -/
structure FilterState where
  sos : Option ℚ
  ziL : Option (List Frame)
  ziR : Option (List Frame)
  lastNorm : ℚ
deriving DecidableEq

/-- Initial filter state set in `AudioEngine.__init__`: `_sos = None`,
`_zi_l = _zi_r = None`, `_last_norm = -1.0`. -/
def filtInit : FilterState := ⟨none, none, none, -1⟩

/-- The whole mutable engine state of `AudioEngine`. -/
structure EngineState where
  /-- `self.data`: immutable decoded stereo buffer, indexed by frame. -/
  data : ℕ → Frame
  /-- `self.n = len(self.data)`. -/
  n : ℕ
  /-- `self.pos`: fractional playback position. -/
  pos : ℚ
  /-- `self.playing`. -/
  playing : Bool
  /-- `self.volume`. -/
  volume : ℚ
  /-- `self.pitch`. -/
  pitch : ℚ
  /-- `self.cutoff`. -/
  cutoff : ℚ
  /-- `self.echo_mix`. -/
  echoMix : ℚ
  /-- `self.dist`. -/
  dist : ℚ
  /-- `self.reverse`. -/
  reverse : Bool
  /-- `self.pan`. -/
  pan : ℚ
  /-- `self.speed_mult`. -/
  speedMult : ℚ
  /-- `self._echo_buf`: circular stereo history. -/
  echoBuf : ℕ → Frame
  /-- `self._echo_blen`. -/
  echoBlen : ℕ
  /-- `self._echo_wp`: write pointer. -/
  echoWp : ℕ
  /-- `self._sos`, `self._zi_l`, `self._zi_r`, `self._last_norm`. -/
  filt : FilterState
  /-- `self.vis`: visualization snapshot of the last rendered block. -/
  vis : List Frame

/-- The per-block parameter snapshot taken at the top of `AudioEngine._cb`:
pitch, speed and pan are clamped with `np.clip`; volume, cutoff, echo mix
and distortion are read raw. -/
structure Params where
  p : ℚ
  spd : ℚ
  v : ℚ
  fc : ℚ
  em : ℚ
  di : ℚ
  rev : Bool
  pan : ℚ

/-- Snapshot read of `_cb` lines: `p = clip(pitch, .25, 4)`,
`spd = clip(speed_mult, .25, 3)`, `v = volume`, `fc = cutoff`,
`em = echo_mix`, `di = dist`, `rev = reverse`, `pan = clip(pan, -1, 1)`. -/
def snapshot (s : EngineState) : Params :=
  { p := qclip s.pitch (1/4) 4
    spd := qclip s.speedMult (1/4) 3
    v := s.volume
    fc := s.cutoff
    em := s.echoMix
    di := s.dist
    rev := s.reverse
    pan := qclip s.pan (-1) 1 }

/-- The resampled read of `_cb`:
`t = arange(frames) * rate + pos; t %= n; i0 = trunc(t) % n;
i1 = (i0 + 1) % n; frac = t - floor(t);
c = data[i0] * (1 - frac) + data[i1] * frac`
(after `t %= n` the entries are nonnegative, so `trunc = floor`). -/
def readBlock (data : ℕ → Frame) (n : ℕ) (pos rate : ℚ) (frames : ℕ) :
    List Frame :=
  (List.range frames).map (fun (i : ℕ) =>
    let t := qmod ((i : ℚ) * rate + pos) n
    let i0 := (Int.toNat ⌊t⌋) % n
    let i1 := (i0 + 1) % n
    let frac := t - ⌊t⌋
    fadd (fsmul (1 - frac) (data i0)) (fsmul frac (data i1)))

/-- The low-pass stage of `_cb`.  `powF` stands for `fun fc => 500.0 ** fc`
and `sosfiltF` for `scipy.signal.sosfilt` applied to the coefficients
designed at a given normalized frequency: it receives the design frequency,
one channel of the block and that channel's `zi`, and returns the filtered
channel and the new `zi`.  Faithful to:

`if fc < 0.97: hz = max(40, 40 * 500**fc); norm = min(hz / (SR/2), 0.99);`
`  if abs(norm - last_norm) > 0.002 or sos is None:`
`    sos = butter(4, norm, output="sos"); ns = sos.shape[0]`
`    if zi_l is None or zi_l.shape[0] != ns: zi_l = zeros; zi_r = zeros`
`    last_norm = norm`
`  c0, zi_l = sosfilt(sos, c[:,0], zi=zi_l); c1, zi_r = ...`
`else: last_norm = -1.0; zi_l = zi_r = None` (and `sos` is kept).
This definition is the inner coefficient-recompute block; `filterStage`
below is the whole stage. -/
def filterDesign (norm : ℚ) (fs : FilterState) : FilterState :=
  if 1/500 < |norm - fs.lastNorm| ∨ fs.sos = none then
    if fs.ziL = none ∨ (fs.ziL.getD []).length ≠ butterNs then
      { sos := some norm
        ziL := some (List.replicate butterNs ((0 : ℚ), (0 : ℚ)))
        ziR := some (List.replicate butterNs ((0 : ℚ), (0 : ℚ)))
        lastNorm := norm }
    else
      { fs with sos := some norm, lastNorm := norm }
  else fs

/-- The full low-pass stage of `_cb`: map cutoff to the normalized design
frequency, run the recompute block (`filterDesign`), then filter each
channel through `sosfilt` with its persistent memory; at or above the
near-open threshold 0.97 bypass entirely and invalidate the cached state
(`last_norm = -1.0`, `zi_l = zi_r = None`, `sos` kept). -/
def filterStage (powF : ℚ → ℚ)
    (sosfiltF : ℚ → List ℚ → List Frame → List ℚ × List Frame)
    (fs : FilterState) (fc : ℚ) (c : List Frame) :
    List Frame × FilterState :=
  if fc < 97/100 then
    let hz := max 40 (40 * powF fc)
    let norm := min (hz / 22050) (99/100)
    let fs1 := filterDesign norm fs
    let r0 := sosfiltF (fs1.sos.getD 0) (c.map Prod.fst) (fs1.ziL.getD [])
    let r1 := sosfiltF (fs1.sos.getD 0) (c.map Prod.snd) (fs1.ziR.getD [])
    (r0.1.zip r1.1, { fs1 with ziL := some r0.2, ziR := some r1.2 })
  else
    (c, { fs with lastNorm := -1, ziL := none, ziR := none })

/-- `AudioEngine._ring_read(start, n)`: `start %= bl; if start + n <= bl:`
contiguous copy, else prefix `buf[start:bl]` then suffix `buf[:n-f]`. -/
def ringRead (buf : ℕ → Frame) (bl start n : ℕ) : List Frame :=
  let s := start % bl
  if s + n ≤ bl then
    (List.range n).map (fun j => buf (s + j))
  else
    let f := bl - s
    (List.range n).map (fun j => if j < f then buf (s + j) else buf (j - f))

/-- `AudioEngine._ring_write(wp, data)`: `if wp + n <= bl:` contiguous
write, else `buf[wp:bl] = data[:f]; buf[:n-f] = data[f:]` (on the - here
unreachable - overlap of the two slices the second write wins, as in the
source). -/
def ringWrite (buf : ℕ → Frame) (bl wp : ℕ) (data : List Frame) :
    ℕ → Frame :=
  let n := data.length
  if wp + n ≤ bl then
    fun i => if wp ≤ i ∧ i < wp + n then data.getD (i - wp) (0, 0) else buf i
  else
    let f := bl - wp
    fun i =>
      if i < n - f then data.getD (f + i) (0, 0)
      else if wp ≤ i ∧ i < bl then data.getD (i - wp) (0, 0)
      else buf i

/-- `AudioEngine._echo_process(c, mix)`: read both delayed taps at
`(wp - d1) % bl` and `(wp - d2) % bl` before writing; when
`mix > 0.005`, return `wet = c + d1 * mix + d2 * (mix * 0.7)` and write
`wet * 0.55` at `wp`; otherwise return the dry block and write it
unscaled; in both cases advance `wp` by the block length modulo the
capacity.  Returns (output block, new buffer, new write pointer). -/
def echoProcess (buf : ℕ → Frame) (bl wp d1 d2 : ℕ) (c : List Frame)
    (mix : ℚ) : List Frame × (ℕ → Frame) × ℕ :=
  let n := c.length
  let rp1 := (((wp : ℤ) - d1).emod bl).toNat
  let rp2 := (((wp : ℤ) - d2).emod bl).toNat
  let ds1 := ringRead buf bl rp1 n
  let ds2 := ringRead buf bl rp2 n
  if 1/200 < mix then
    let wet := (List.range n).map (fun j =>
      fadd (c.getD j (0, 0))
        (fadd (fsmul mix (ds1.getD j (0, 0)))
          (fsmul (mix * (7/10)) (ds2.getD j (0, 0)))))
    (wet, ringWrite buf bl wp (wet.map (fun x => fsmul (11/20) x)),
      (wp + n) % bl)
  else
    (c, ringWrite buf bl wp c, (wp + n) % bl)

/-- The audio callback `AudioEngine._cb`, as a pure function from the
engine state and the requested frame count to the block written to the
output sink and the new engine state.  `tanhF` stands for `np.tanh`,
`powF` for `fun fc => 500.0 ** fc` and `sosfiltF` for `sosfilt` (see
`filterStage`). -/
def cb (tanhF powF : ℚ → ℚ)
    (sosfiltF : ℚ → List ℚ → List Frame → List ℚ × List Frame)
    (s : EngineState) (frames : ℕ) : List Frame × EngineState :=
  if s.playing = false then
    (List.replicate frames ((0 : ℚ), (0 : ℚ)), s)
  else
    let pr := snapshot s
    let rate := pr.p * pr.spd * (if pr.rev then -1 else 1)
    let c0 := readBlock s.data s.n s.pos rate frames
    let pos' := qmod (s.pos + (frames : ℚ) * rate) (s.n : ℚ)
    let fres := filterStage powF sosfiltF s.filt pr.fc c0
    let c1 := fres.1
    let c2 :=
      if 1/100 < pr.di then
        c1.map (fun f => (tanhF (f.1 * (1 + pr.di * 25)),
                          tanhF (f.2 * (1 + pr.di * 25))))
      else c1
    let eres := echoProcess s.echoBuf s.echoBlen s.echoWp d1Len d2Len c2 pr.em
    let c3 := eres.1
    let c4 :=
      if 1/100 < |pr.pan| then
        c3.map (fun f => (f.1 * min 1 (1 - pr.pan), f.2 * min 1 (1 + pr.pan)))
      else c3
    let c5 := c4.map (fun f =>
      (qclip (f.1 * pr.v) (-1) 1, qclip (f.2 * pr.v) (-1) 1))
    (c5, { s with pos := pos', filt := fres.2, echoBuf := eres.2.1,
                  echoWp := eres.2.2, vis := c5 })

/-- `ElasticString.reset`: `eng.pitch = 1.0`. -/
def elasticStringReset (s : EngineState) : EngineState := { s with pitch := 1 }

/-- `GravityOrb.reset`: `eng.cutoff = 1.0`. -/
def gravityOrbReset (s : EngineState) : EngineState := { s with cutoff := 1 }

/-- `RipplePond.reset`: `eng.echo_mix = 0.0`. -/
def ripplePondReset (s : EngineState) : EngineState := { s with echoMix := 0 }

/-- `ParticleCloud.reset`: `eng.dist = 0.0`. -/
def particleCloudReset (s : EngineState) : EngineState := { s with dist := 0 }

/-- `VolumeThread.reset`: `eng.volume = 0.7`. -/
def volumeThreadReset (s : EngineState) : EngineState :=
  { s with volume := 7/10 }

/-- `ReverseVortex.reset`: `eng.reverse = False`. -/
def reverseVortexReset (s : EngineState) : EngineState :=
  { s with reverse := false }

/-- `TimeSpiral.reset`: `eng.speed_mult = 1.0`. -/
def timeSpiralReset (s : EngineState) : EngineState :=
  { s with speedMult := 1 }

/-- `DraggableSpeaker.reset`: `eng.pan = 0.0`. -/
def draggableSpeakerReset (s : EngineState) : EngineState := { s with pan := 0 }

/-- The R-key handler of `main`: `for obj in objects: obj.reset()`, calling
each object's reset in the order the objects are listed.  `SpaceShooter`,
`ChaosBurst` and `SecretWobble` do not touch the engine in their resets. -/
def resetCommand (s : EngineState) : EngineState :=
  draggableSpeakerReset (timeSpiralReset (reverseVortexReset
    (volumeThreadReset (particleCloudReset (ripplePondReset
      (gravityOrbReset (elasticStringReset s)))))))

/-- Left edge of the seek bar: `seek_bar_rect.x = 30`. -/
def seekBarX : ℤ := 30

/-- Width of the seek bar: `seek_bar_rect.width = WIDTH - 60 = 1220`. -/
def seekBarW : ℤ := 1220

/-- The click-to-seek handler of `main`:
`frac = (mx - rect.x) / rect.width; frac = max(0, min(1, frac));`
`engine.pos = frac * engine.n`.  The handler only runs when
`rect.collidepoint(mx, my)` holds, i.e. `rect.x <= mx < rect.x + width`. -/
def seekClick (s : EngineState) (mx : ℤ) : EngineState :=
  let frac := max 0 (min 1 (((mx : ℚ) - (seekBarX : ℚ)) / (seekBarW : ℚ)))
  { s with pos := frac * (s.n : ℚ) }

/-! ## Arithmetic helper lemmas -/

/-- For a positive modulus, `qmod` lands in `[0, n)` (negative-safe). -/
theorem qmod_mem (x : ℚ) {n : ℚ} (hn : 0 < n) : 0 ≤ qmod x n ∧ qmod x n < n := by
  have hne : n ≠ 0 := ne_of_gt hn
  have h1 : (⌊x / n⌋ : ℚ) ≤ x / n := Int.floor_le _
  have h2 : x / n < ⌊x / n⌋ + 1 := Int.lt_floor_add_one _
  have h1' : (⌊x / n⌋ : ℚ) * n ≤ x := by
    have := mul_le_mul_of_nonneg_right h1 (le_of_lt hn)
    rwa [div_mul_cancel₀ x hne] at this
  have h2' : x < ((⌊x / n⌋ : ℚ) + 1) * n := by
    have := mul_lt_mul_of_pos_right h2 hn
    rwa [div_mul_cancel₀ x hne] at this
  constructor
  · unfold qmod; nlinarith
  · unfold qmod; nlinarith

/-- `qclip` lands in `[lo, hi]` whenever `lo ≤ hi`. -/
theorem qclip_mem {x lo hi : ℚ} (h : lo ≤ hi) :
    lo ≤ qclip x lo hi ∧ qclip x lo hi ≤ hi := by
  unfold qclip
  constructor
  · exact le_min h (le_max_left _ _)
  · exact min_le_left _ _

/-- `qclip` is the identity on values already inside the range. -/
theorem qclip_eq_self {x lo hi : ℚ} (h1 : lo ≤ x) (h2 : x ≤ hi) :
    qclip x lo hi = x := by
  unfold qclip
  rw [max_eq_right h1, min_eq_right h2]

/-- `getD` of a map over `List.range` evaluates the mapped function. -/
theorem getD_range_map {α : Type} (g : ℕ → α) (d : α) {n j : ℕ} (hj : j < n) :
    ((List.range n).map g).getD j d = g j := by
  simp [List.getD_eq_getElem?_getD, List.getElem?_map, List.getElem?_range, hj]

/-- A `qmod` of natural casts is the natural modulo, cast back. -/
theorem qmod_natCast (m : ℕ) {n : ℕ} (hn : 0 < n) :
    qmod (m : ℚ) (n : ℚ) = ((m % n : ℕ) : ℚ) := by
  have hnq : (0 : ℚ) < (n : ℚ) := by exact_mod_cast hn
  have he : ((n * (m / n) + m % n : ℕ) : ℚ) = (m : ℚ) := by
    exact_mod_cast congrArg (Nat.cast : ℕ → ℚ) (Nat.div_add_mod m n)
  have hr : ((m % n : ℕ) : ℚ) < (n : ℚ) := by exact_mod_cast Nat.mod_lt m hn
  have hr0 : (0 : ℚ) ≤ ((m % n : ℕ) : ℚ) := by positivity
  push_cast at he
  have hfl : ⌊(m : ℚ) / (n : ℚ)⌋ = ((m / n : ℕ) : ℤ) := by
    rw [Int.floor_eq_iff]
    simp only [Int.cast_natCast]
    constructor
    · rw [le_div_iff₀ hnq]
      nlinarith
    · rw [div_lt_iff₀ hnq]
      nlinarith
  unfold qmod
  rw [hfl]
  simp only [Int.cast_natCast]
  linarith

/-! ## Ring buffer lemmas -/

/-- The split-copy `ringRead` equals the uniform modular read. -/
theorem ringRead_eq (buf : ℕ → Frame) {bl : ℕ} (start : ℕ) {n : ℕ}
    (hbl : 0 < bl) (hn : n ≤ bl) :
    ringRead buf bl start n =
      (List.range n).map (fun j => buf ((start % bl + j) % bl)) := by
  unfold ringRead
  set s := start % bl with hs
  have hslt : s < bl := Nat.mod_lt _ hbl
  by_cases hc : s + n ≤ bl
  · rw [if_pos hc]
    apply List.map_congr_left
    intro j hj
    rw [List.mem_range] at hj
    have : s + j < bl := by omega
    rw [Nat.mod_eq_of_lt this]
  · rw [if_neg hc]
    apply List.map_congr_left
    intro j hj
    rw [List.mem_range] at hj
    by_cases hjf : j < bl - s
    · rw [if_pos hjf]
      have : s + j < bl := by omega
      rw [Nat.mod_eq_of_lt this]
    · rw [if_neg hjf]
      have h1 : bl ≤ s + j := by omega
      have h2 : s + j - bl < bl := by omega
      have : (s + j) % bl = s + j - bl := by
        rw [Nat.mod_eq_sub_mod h1, Nat.mod_eq_of_lt h2]
      rw [this]
      congr 1
      omega

/-- Reading back the region just written by `ringWrite` yields the written
data. -/
theorem ringWrite_getD (buf : ℕ → Frame) {bl wp : ℕ} (data : List Frame)
    (hbl : 0 < bl) (hwp : wp < bl) (hn : data.length ≤ bl) {j : ℕ}
    (hj : j < data.length) :
    ringWrite buf bl wp data ((wp + j) % bl) = data.getD j (0, 0) := by
  unfold ringWrite
  by_cases hc : wp + data.length ≤ bl
  · rw [if_pos hc]
    have hlt : wp + j < bl := by omega
    rw [Nat.mod_eq_of_lt hlt, if_pos (by omega)]
    congr 1
    omega
  · rw [if_neg hc]
    by_cases hjf : j < bl - wp
    · have hlt : wp + j < bl := by omega
      rw [Nat.mod_eq_of_lt hlt]
      rw [if_neg (by omega), if_pos (by omega)]
      congr 1
      omega
    · have h1 : bl ≤ wp + j := by omega
      have h2 : wp + j - bl < bl := by omega
      have hm : (wp + j) % bl = wp + j - bl := by
        rw [Nat.mod_eq_sub_mod h1, Nat.mod_eq_of_lt h2]
      rw [hm, if_pos (by omega)]
      congr 1
      omega

/-- Bridge between the reduced tap start `((wp - d).emod bl).toNat` used by
`_echo_process` and the per-sample ring index `((wp + j - d).emod bl)`. -/
theorem tap_index_eq {bl : ℕ} (wp d j : ℕ) (hbl : 0 < bl) :
    (((((wp : ℤ) - d).emod bl).toNat) % bl + j) % bl =
      (((wp : ℤ) + j - d).emod bl).toNat := by
  have hblp : (0 : ℤ) < (bl : ℤ) := by exact_mod_cast hbl
  have hblz : ((bl : ℤ)) ≠ 0 := ne_of_gt hblp
  set a := ((wp : ℤ) - d).emod bl with ha
  have ha0 : 0 ≤ a := Int.emod_nonneg _ hblz
  have halt : a < (bl : ℤ) := Int.emod_lt_of_pos _ hblp
  have hta : ((a.toNat : ℤ)) = a := Int.toNat_of_nonneg ha0
  have htalt : a.toNat < bl := by omega
  rw [Nat.mod_eq_of_lt htalt]
  have hb0 : 0 ≤ ((wp : ℤ) + j - d).emod bl := Int.emod_nonneg _ hblz
  have key : (((a.toNat + j) % bl : ℕ) : ℤ) =
      ((((wp : ℤ) + j - d).emod bl).toNat : ℤ) := by
    push_cast [hta, Int.toNat_of_nonneg hb0]
    rw [ha]
    have hr : (wp : ℤ) + j - d = ((wp : ℤ) - d) + j := by ring
    rw [hr]
    show (((wp : ℤ) - d) % bl + j) % bl = (((wp : ℤ) - d) + j) % bl
    conv_lhs => rw [Int.add_emod]
    rw [Int.emod_emod_of_dvd _ dvd_rfl]
    conv_rhs => rw [Int.add_emod]
  exact Nat.cast_inj.mp key

/-! ## Claim theorems -/

/-- C10: whenever the playing flag is false, the render callback outputs an
all-zero block and changes no engine state at all: position, echo buffer
contents and write pointer, filter coefficients and per-channel memory, and
the visualization snapshot are left exactly as they were. -/
theorem c10_paused_silent_no_state_change
    (tanhF powF : ℚ → ℚ)
    (sosfiltF : ℚ → List ℚ → List Frame → List ℚ × List Frame)
    (s : EngineState) (frames : ℕ) (h : s.playing = false) :
    (cb tanhF powF sosfiltF s frames).1 =
        List.replicate frames ((0 : ℚ), (0 : ℚ)) ∧
      (cb tanhF powF sosfiltF s frames).2.pos = s.pos ∧
      (cb tanhF powF sosfiltF s frames).2.echoBuf = s.echoBuf ∧
      (cb tanhF powF sosfiltF s frames).2.echoWp = s.echoWp ∧
      (cb tanhF powF sosfiltF s frames).2.filt = s.filt ∧
      (cb tanhF powF sosfiltF s frames).2.vis = s.vis ∧
      (cb tanhF powF sosfiltF s frames).2 = s := by
  unfold cb
  rw [if_pos h]
  exact ⟨rfl, rfl, rfl, rfl, rfl, rfl, rfl⟩

/-- C10 witness at a concrete stopped engine. -/
def wStopped : EngineState :=
  { data := fun _ => (0, 0), n := 2, pos := 1/2, playing := false
    volume := 7/10, pitch := 1, cutoff := 1, echoMix := 0, dist := 0
    reverse := false, pan := 0, speedMult := 1
    echoBuf := fun _ => (0, 0), echoBlen := 4, echoWp := 0
    filt := filtInit, vis := [] }

/-- Witness for C10 at a concrete stopped engine state. -/
theorem c10_witness :
    (cb id id (fun _ xs zi => (xs, zi)) wStopped 3).1 =
        List.replicate 3 ((0 : ℚ), (0 : ℚ)) ∧
      (cb id id (fun _ xs zi => (xs, zi)) wStopped 3).2.pos = wStopped.pos ∧
      (cb id id (fun _ xs zi => (xs, zi)) wStopped 3).2.echoBuf =
        wStopped.echoBuf ∧
      (cb id id (fun _ xs zi => (xs, zi)) wStopped 3).2.echoWp =
        wStopped.echoWp ∧
      (cb id id (fun _ xs zi => (xs, zi)) wStopped 3).2.filt = wStopped.filt ∧
      (cb id id (fun _ xs zi => (xs, zi)) wStopped 3).2.vis = wStopped.vis ∧
      (cb id id (fun _ xs zi => (xs, zi)) wStopped 3).2 = wStopped :=
  c10_paused_silent_no_state_change id id (fun _ xs zi => (xs, zi))
    wStopped 3 rfl

/-- C5: after every rendered block with playing on, the new position equals
`(pos + frames * rate) mod n` with the negative-safe modulo, hence lies in
`[0, n)`; with reverse on it equals `(pos - frames * r) mod n` for the rate
magnitude `r`, wrapping through 0. -/
theorem c5_position_advance
    (tanhF powF : ℚ → ℚ)
    (sosfiltF : ℚ → List ℚ → List Frame → List ℚ × List Frame)
    (s : EngineState) (frames : ℕ) (hp : s.playing = true) (hn : 0 < s.n) :
    (cb tanhF powF sosfiltF s frames).2.pos =
        qmod (s.pos + (frames : ℚ) *
          (qclip s.pitch (1/4) 4 * qclip s.speedMult (1/4) 3 *
            (if s.reverse then -1 else 1))) (s.n : ℚ) ∧
      0 ≤ (cb tanhF powF sosfiltF s frames).2.pos ∧
      (cb tanhF powF sosfiltF s frames).2.pos < (s.n : ℚ) ∧
      (s.reverse = true →
        (cb tanhF powF sosfiltF s frames).2.pos =
          qmod (s.pos - (frames : ℚ) *
            (qclip s.pitch (1/4) 4 * qclip s.speedMult (1/4) 3)) (s.n : ℚ)) := by
  have hnq : (0 : ℚ) < (s.n : ℚ) := by exact_mod_cast hn
  have he : (cb tanhF powF sosfiltF s frames).2.pos =
      qmod (s.pos + (frames : ℚ) *
        (qclip s.pitch (1/4) 4 * qclip s.speedMult (1/4) 3 *
          (if s.reverse then -1 else 1))) (s.n : ℚ) := by
    simp [cb, hp, snapshot]
  have hq := qmod_mem (s.pos + (frames : ℚ) *
    (qclip s.pitch (1/4) 4 * qclip s.speedMult (1/4) 3 *
      (if s.reverse then -1 else 1))) hnq
  refine ⟨he, ?_, ?_, ?_⟩
  · rw [he]; exact hq.1
  · rw [he]; exact hq.2
  · intro hrev
    rw [he, hrev]
    have hif : (if (true : Bool) = true then (-1 : ℚ) else 1) = -1 := by
      norm_num
    rw [hif]
    congr 1
    ring

/-- Witness engine for the playing-state theorems: a 2-frame buffer of
in-range samples with all parameters at their defaults. -/
def wPlaying : EngineState :=
  { data := fun _ => (1/2, -1/2), n := 2, pos := 0, playing := true
    volume := 1, pitch := 1, cutoff := 1, echoMix := 0, dist := 0
    reverse := false, pan := 0, speedMult := 1
    echoBuf := fun _ => (0, 0), echoBlen := 4, echoWp := 0
    filt := filtInit, vis := [] }

/-- Witness for C5 at a concrete playing engine state. -/
theorem c5_witness :
    (cb id id (fun _ xs zi => (xs, zi)) wPlaying 1).2.pos =
        qmod (wPlaying.pos + (1 : ℚ) *
          (qclip wPlaying.pitch (1/4) 4 * qclip wPlaying.speedMult (1/4) 3 *
            (if wPlaying.reverse then -1 else 1))) (wPlaying.n : ℚ) ∧
      0 ≤ (cb id id (fun _ xs zi => (xs, zi)) wPlaying 1).2.pos ∧
      (cb id id (fun _ xs zi => (xs, zi)) wPlaying 1).2.pos < (wPlaying.n : ℚ) ∧
      (wPlaying.reverse = true →
        (cb id id (fun _ xs zi => (xs, zi)) wPlaying 1).2.pos =
          qmod (wPlaying.pos - (1 : ℚ) *
            (qclip wPlaying.pitch (1/4) 4 * qclip wPlaying.speedMult (1/4) 3))
            (wPlaying.n : ℚ)) :=
  c5_position_advance id id (fun _ xs zi => (xs, zi)) wPlaying 1 rfl
    (by decide)

/-- C1: for every rendered block, all control parameter values and any
sample buffer whose frames lie in [-1,1], every sample of the block written
to the output sink lies in [-1,1]. -/
theorem c1_output_in_range
    (tanhF powF : ℚ → ℚ)
    (sosfiltF : ℚ → List ℚ → List Frame → List ℚ × List Frame)
    (s : EngineState) (frames : ℕ)
    (hdata : ∀ i, -1 ≤ (s.data i).1 ∧ (s.data i).1 ≤ 1 ∧
      -1 ≤ (s.data i).2 ∧ (s.data i).2 ≤ 1) :
    ∀ y ∈ (cb tanhF powF sosfiltF s frames).1,
      -1 ≤ y.1 ∧ y.1 ≤ 1 ∧ -1 ≤ y.2 ∧ y.2 ≤ 1 := by
  intro y hy
  by_cases hp : s.playing = false
  · unfold cb at hy
    rw [if_pos hp] at hy
    have hz := List.eq_of_mem_replicate hy
    rw [hz]
    norm_num
  · unfold cb at hy
    rw [if_neg hp] at hy
    simp only [] at hy
    rcases List.mem_map.mp hy with ⟨a, _, rfl⟩
    have h1 := qclip_mem (x := a.1 * (snapshot s).v)
      (show (-1 : ℚ) ≤ 1 by norm_num)
    have h2 := qclip_mem (x := a.2 * (snapshot s).v)
      (show (-1 : ℚ) ≤ 1 by norm_num)
    exact ⟨h1.1, h1.2, h2.1, h2.2⟩

/-- Witness for C1 at a concrete playing engine with in-range samples. -/
theorem c1_witness :
    (∀ i, -1 ≤ (wPlaying.data i).1 ∧ (wPlaying.data i).1 ≤ 1 ∧
        -1 ≤ (wPlaying.data i).2 ∧ (wPlaying.data i).2 ≤ 1) ∧
      ∀ y ∈ (cb id id (fun _ xs zi => (xs, zi)) wPlaying 1).1,
        -1 ≤ y.1 ∧ y.1 ≤ 1 ∧ -1 ≤ y.2 ∧ y.2 ≤ 1 :=
  ⟨fun _ => ⟨by norm_num [wPlaying], by norm_num [wPlaying],
      by norm_num [wPlaying], by norm_num [wPlaying]⟩,
    c1_output_in_range id id (fun _ xs zi => (xs, zi)) wPlaying 1
      (fun _ => ⟨by norm_num [wPlaying], by norm_num [wPlaying],
        by norm_num [wPlaying], by norm_num [wPlaying]⟩)⟩

/-- C4: any click-to-seek request (the handler runs exactly when the mouse
x coordinate satisfies the bar's collidepoint test) sets a position inside
`[0, n)`; it never fails and never produces `pos = n`. -/
theorem c4_seek_clamped (s : EngineState) (mx : ℤ) (hn : 0 < s.n)
    (h1 : seekBarX ≤ mx) (h2 : mx < seekBarX + seekBarW) :
    0 ≤ (seekClick s mx).pos ∧ (seekClick s mx).pos < (s.n : ℚ) := by
  have hnq : (0 : ℚ) < (s.n : ℚ) := by exact_mod_cast hn
  have hx1 : (30 : ℚ) ≤ (mx : ℚ) := by
    have : (30 : ℤ) ≤ mx := h1
    exact_mod_cast this
  have hx2 : (mx : ℚ) ≤ 1249 := by
    have : mx ≤ 1249 := by
      have : mx < 1250 := h2
      omega
    exact_mod_cast this
  have hpos : (seekClick s mx).pos =
      max 0 (min 1 (((mx : ℚ) - 30) / 1220)) * (s.n : ℚ) := by
    simp [seekClick, seekBarX, seekBarW]
  have hfr1 : ((mx : ℚ) - 30) / 1220 ≤ 1219/1220 := by
    rw [div_le_iff₀ (by norm_num : (0 : ℚ) < 1220)]
    norm_num
    linarith
  have hfr : max 0 (min 1 (((mx : ℚ) - 30) / 1220)) < 1 := by
    apply max_lt (by norm_num)
    calc min 1 (((mx : ℚ) - 30) / 1220) ≤ ((mx : ℚ) - 30) / 1220 :=
          min_le_right _ _
      _ ≤ 1219/1220 := hfr1
      _ < 1 := by norm_num
  constructor
  · rw [hpos]
    exact mul_nonneg (le_max_left 0 _) (le_of_lt hnq)
  · rw [hpos]
    calc max 0 (min 1 (((mx : ℚ) - 30) / 1220)) * (s.n : ℚ)
        < 1 * (s.n : ℚ) := by exact mul_lt_mul_of_pos_right hfr hnq
      _ = (s.n : ℚ) := one_mul _

/-- Witness for C4: a concrete seek click inside the bar. -/
theorem c4_witness :
    0 ≤ (seekClick wPlaying 100).pos ∧
      (seekClick wPlaying 100).pos < (wPlaying.n : ℚ) :=
  c4_seek_clamped wPlaying 100 (by decide) (by decide) (by decide)

/-- C6 fails on the code: cutoff (likewise echo mix and distortion) is read
raw at block entry, without any clamp into `[0, 1]`; a stored cutoff of 2 is
used as 2. -/
theorem c6_counterexample :
    (snapshot { wPlaying with cutoff := 2 }).fc = 2 ∧
      ¬ ((snapshot { wPlaying with cutoff := 2 }).fc ≤ 1) :=
  ⟨rfl, by decide⟩

/-- C6 amended: at block entry only pitch, speed and pan are clamped (into
`[0.25, 4]`, `[0.25, 3]` and `[-1, 1]` respectively); volume, cutoff,
echo mix and distortion are passed to the block exactly as stored. -/
theorem c6_amended_snapshot_clamps (s : EngineState) :
    ((1/4 : ℚ) ≤ (snapshot s).p ∧ (snapshot s).p ≤ 4) ∧
      ((1/4 : ℚ) ≤ (snapshot s).spd ∧ (snapshot s).spd ≤ 3) ∧
      ((-1 : ℚ) ≤ (snapshot s).pan ∧ (snapshot s).pan ≤ 1) ∧
      (snapshot s).fc = s.cutoff ∧ (snapshot s).em = s.echoMix ∧
      (snapshot s).di = s.dist ∧ (snapshot s).v = s.volume := by
  refine ⟨?_, ?_, ?_, rfl, rfl, rfl, rfl⟩
  · exact qclip_mem (by norm_num)
  · exact qclip_mem (by norm_num)
  · exact qclip_mem (by norm_num)

/-- A state with visible contents in the echo buffer and filter memory,
used to show what `reset` does not clear. -/
def sC3 : EngineState :=
  { wPlaying with
    echoBuf := fun _ => (1, 0)
    filt := ⟨some (1/2), some [((1 : ℚ), (1 : ℚ))],
      some [((1 : ℚ), (1 : ℚ))], 1/2⟩ }

/-- C3 fails on the code: the reset command leaves the echo buffer contents
and the per-channel filter memory untouched (it only writes the control
parameters). -/
theorem c3_counterexample :
    (resetCommand sC3).echoBuf 0 = (1, 0) ∧
      ((1 : ℚ), (0 : ℚ)) ≠ ((0 : ℚ), (0 : ℚ)) ∧
      (resetCommand sC3).filt.ziL = some [((1 : ℚ), (1 : ℚ))] :=
  ⟨rfl, by decide, rfl⟩

/-- C3 amended: the reset command restores every ControlParameter to its
default value (volume 0.7, pitch 1, cutoff 1, echoMix 0, distortion 0,
reverse false, pan 0, speed 1) and leaves the playing flag unchanged, but
it does not itself clear the FilterState memory or the EchoBuffer contents
(the next rendered block invalidates the filter memory only because cutoff
returns to 1.0 and hits the bypass branch; the echo buffer is never
cleared). -/
theorem c3_amended_reset (s : EngineState) :
    resetCommand s =
        { s with
          volume := 7/10
          pitch := 1
          cutoff := 1
          echoMix := 0
          dist := 0
          reverse := false
          pan := 0
          speedMult := 1 } ∧
      (resetCommand s).playing = s.playing ∧
      (resetCommand s).echoBuf = s.echoBuf ∧
      (resetCommand s).echoWp = s.echoWp ∧
      (resetCommand s).filt = s.filt ∧
      (resetCommand s).pos = s.pos := by
  cases s
  exact ⟨rfl, rfl, rfl, rfl, rfl, rfl⟩

/-! ## Filter state integrity (C7) -/

/-- Invariant of the persistent filter state: whenever per-channel memory
is present its length equals the cascade section count; memory can only be
absent while the coefficients are absent too or the last-normalized cutoff
is at its sentinel (so the recompute branch necessarily fires before the
memory is next used); and the two channels are present or absent
together. -/
def FiltInv (fs : FilterState) : Prop :=
  (∀ l, fs.ziL = some l → l.length = butterNs) ∧
  (∀ l, fs.ziR = some l → l.length = butterNs) ∧
  (fs.ziL = none → fs.sos = none ∨ fs.lastNorm = -1) ∧
  (fs.ziL = none ↔ fs.ziR = none)

/-- After the recompute block runs with a positive design frequency on a
state satisfying the invariant, both channels hold memory of exactly the
cascade section count. -/
theorem filterDesign_zi {norm : ℚ} (fs : FilterState) (hinv : FiltInv fs)
    (hpos : 0 < norm) :
    ∃ l r, (filterDesign norm fs).ziL = some l ∧
      (filterDesign norm fs).ziR = some r ∧
      l.length = butterNs ∧ r.length = butterNs := by
  obtain ⟨hL, hR, hnone, hiff⟩ := hinv
  unfold filterDesign
  by_cases hrc : 1/500 < |norm - fs.lastNorm| ∨ fs.sos = none
  · rw [if_pos hrc]
    by_cases hzi : fs.ziL = none ∨ (fs.ziL.getD []).length ≠ butterNs
    · rw [if_pos hzi]
      exact ⟨_, _, rfl, rfl, List.length_replicate _ _,
        List.length_replicate _ _⟩
    · rw [if_neg hzi]
      push_neg at hzi
      obtain ⟨hzL, _⟩ := hzi
      obtain ⟨l, hl⟩ := Option.ne_none_iff_exists'.mp hzL
      have hzR : fs.ziR ≠ none := fun hr => hzL (hiff.mpr hr)
      obtain ⟨r, hr⟩ := Option.ne_none_iff_exists'.mp hzR
      exact ⟨l, r, hl, hr, hL l hl, hR r hr⟩
  · rw [if_neg hrc]
    push_neg at hrc
    obtain ⟨hna, hnb⟩ := hrc
    have hzL : fs.ziL ≠ none := by
      intro hz
      rcases hnone hz with hs | hlast
      · exact hnb hs
      · rw [hlast] at hna
        have : |norm - (-1)| = norm + 1 := by
          rw [abs_of_pos]
          · ring
          · linarith
        rw [this] at hna
        linarith
    obtain ⟨l, hl⟩ := Option.ne_none_iff_exists'.mp hzL
    have hzR : fs.ziR ≠ none := fun hr => hzL (hiff.mpr hr)
    obtain ⟨r, hr⟩ := Option.ne_none_iff_exists'.mp hzR
    exact ⟨l, r, hl, hr, hL l hl, hR r hr⟩

/-- The design frequency computed by the filter stage is positive. -/
theorem filter_norm_pos (powF : ℚ → ℚ) (fc : ℚ) :
    0 < min (max 40 (40 * powF fc) / 22050) (99/100) := by
  apply lt_min
  · apply div_pos _ (by norm_num)
    calc (0 : ℚ) < 40 := by norm_num
      _ ≤ max 40 (40 * powF fc) := le_max_left _ _
  · norm_num

/-- One filter-stage step preserves the invariant, and whenever filtering
is engaged the resulting per-channel memory has exactly the cascade
section count (given that `sosfilt` returns memory of the same shape it
received, which is its contract). -/
theorem filterStage_inv (powF : ℚ → ℚ)
    (sosfiltF : ℚ → List ℚ → List Frame → List ℚ × List Frame)
    (hlen : ∀ a xs zi, ((sosfiltF a xs zi).2).length = zi.length)
    (fs : FilterState) (fc : ℚ) (c : List Frame) (hinv : FiltInv fs) :
    FiltInv (filterStage powF sosfiltF fs fc c).2 ∧
      (fc < 97/100 →
        ∃ l r, (filterStage powF sosfiltF fs fc c).2.ziL = some l ∧
          (filterStage powF sosfiltF fs fc c).2.ziR = some r ∧
          l.length = butterNs ∧ r.length = butterNs) := by
  by_cases hfc : fc < 97/100
  · have hpos := filter_norm_pos powF fc
    obtain ⟨l, r, hl, hr, hll, hrl⟩ := filterDesign_zi fs hinv hpos
    unfold filterStage
    rw [if_pos hfc]
    simp only []
    rw [hl, hr]
    simp only [Option.getD_some]
    constructor
    · refine ⟨?_, ?_, ?_, ?_⟩
      · intro l' hl'
        have := Option.some_injective _ hl'.symm
        rw [this, hlen, hll]
      · intro r' hr'
        have := Option.some_injective _ hr'.symm
        rw [this, hlen, hrl]
      · intro h
        exact absurd h (by simp)
      · constructor <;> intro h <;> exact absurd h (by simp)
    · intro _
      exact ⟨_, _, rfl, rfl, by rw [hlen, hll], by rw [hlen, hrl]⟩
  · unfold filterStage
    rw [if_neg hfc]
    obtain ⟨hL, hR, _, _⟩ := hinv
    refine ⟨⟨?_, ?_, ?_, ?_⟩, fun h => absurd h hfc⟩
    · intro l' hl'
      exact absurd hl'.symm (by simp)
    · intro r' hr'
      exact absurd hr'.symm (by simp)
    · intro _
      right
      rfl
    · constructor <;> intro <;> rfl

/-- C7: at or above the near-open threshold 0.97 the block bypasses
filtering and invalidates the cached state (sentinel lastNorm, cleared
per-channel memory); and however often cutoff is toggled across the
threshold, whenever filtering is engaged the per-channel memory length
equals the current cascade order (re-engaging reallocates correctly sized
state, never silently truncates).  `sosfiltF` is assumed to return memory
of the shape it received, which is the `sosfilt` contract. -/
theorem c7_bypass_and_filter_state_integrity (powF : ℚ → ℚ)
    (sosfiltF : ℚ → List ℚ → List Frame → List ℚ × List Frame)
    (hlen : ∀ a xs zi, ((sosfiltF a xs zi).2).length = zi.length) :
    FiltInv filtInit ∧
      (∀ fs fc c, ¬ fc < 97/100 →
        filterStage powF sosfiltF fs fc c =
          (c, { fs with lastNorm := -1, ziL := none, ziR := none })) ∧
      (∀ fs fc c, FiltInv fs → FiltInv (filterStage powF sosfiltF fs fc c).2) ∧
      (∀ fs fc c, FiltInv fs → fc < 97/100 →
        ∃ l r, (filterStage powF sosfiltF fs fc c).2.ziL = some l ∧
          (filterStage powF sosfiltF fs fc c).2.ziR = some r ∧
          l.length = butterNs ∧ r.length = butterNs) ∧
      (∀ steps : List (ℚ × List Frame),
        FiltInv (steps.foldl
          (fun fs st => (filterStage powF sosfiltF fs st.1 st.2).2)
          filtInit)) := by
  have hinit : FiltInv filtInit := by
    refine ⟨?_, ?_, ?_, ?_⟩ <;> simp [filtInit]
  have hbypass : ∀ fs fc c, ¬ fc < 97/100 →
      filterStage powF sosfiltF fs fc c =
        (c, { fs with lastNorm := -1, ziL := none, ziR := none }) := by
    intro fs fc c h
    unfold filterStage
    rw [if_neg h]
  refine ⟨hinit, hbypass,
    fun fs fc c hi => (filterStage_inv powF sosfiltF hlen fs fc c hi).1,
    fun fs fc c hi hfc => (filterStage_inv powF sosfiltF hlen fs fc c hi).2 hfc,
    ?_⟩
  intro steps
  have hgen : ∀ (st : List (ℚ × List Frame)) (fs : FilterState), FiltInv fs →
      FiltInv (st.foldl
        (fun fs st => (filterStage powF sosfiltF fs st.1 st.2).2) fs) := by
    intro st
    induction st with
    | nil => exact fun fs h => h
    | cons a tl ih =>
        exact fun fs h => ih _ (filterStage_inv powF sosfiltF hlen fs a.1 a.2 h).1
  exact hgen steps filtInit hinit

/-- Witness for C7 with `sosfilt` instantiated by a concrete
shape-preserving function. -/
theorem c7_witness :
    FiltInv filtInit ∧
      (∀ fs fc c, ¬ fc < 97/100 →
        filterStage id (fun _ xs zi => (xs, zi)) fs fc c =
          (c, { fs with lastNorm := -1, ziL := none, ziR := none })) ∧
      (∀ fs fc c, FiltInv fs →
        FiltInv (filterStage id (fun _ xs zi => (xs, zi)) fs fc c).2) ∧
      (∀ fs fc c, FiltInv fs → fc < 97/100 →
        ∃ l r,
          (filterStage id (fun _ xs zi => (xs, zi)) fs fc c).2.ziL = some l ∧
          (filterStage id (fun _ xs zi => (xs, zi)) fs fc c).2.ziR = some r ∧
          l.length = butterNs ∧ r.length = butterNs) ∧
      (∀ steps : List (ℚ × List Frame),
        FiltInv (steps.foldl
          (fun fs st => (filterStage id (fun _ xs zi => (xs, zi)) fs st.1 st.2).2)
          filtInit)) :=
  c7_bypass_and_filter_state_integrity id (fun _ xs zi => (xs, zi))
    (fun _ _ _ => rfl)

/-- C8: the echo stage reads both taps from the ring before writing, so the
taps deliver the buffer contents from `d1` and `d2` samples ago; above the
mix threshold the output is `dry + tap1*mix + tap2*(mix*0.7)` and
`wet * 0.55` is written at the write pointer; at or below the threshold the
dry block is returned and written unscaled; in both cases the write pointer
advances by the block length modulo the capacity. -/
theorem c8_echo_reads_taps_then_writes (buf : ℕ → Frame) (bl wp d1 d2 : ℕ)
    (c : List Frame) (mix : ℚ) (hbl : 0 < bl) (hn : c.length ≤ bl)
    (hwp : wp < bl) :
    (echoProcess buf bl wp d1 d2 c mix).2.2 = (wp + c.length) % bl ∧
      (1/200 < mix →
        (∀ j, j < c.length →
          (echoProcess buf bl wp d1 d2 c mix).1.getD j (0, 0) =
            fadd (c.getD j (0, 0))
              (fadd (fsmul mix (buf ((((wp : ℤ) + j - d1).emod bl).toNat)))
                (fsmul (mix * (7/10))
                  (buf ((((wp : ℤ) + j - d2).emod bl).toNat))))) ∧
        (∀ j, j < c.length →
          (echoProcess buf bl wp d1 d2 c mix).2.1 ((wp + j) % bl) =
            fsmul (11/20)
              ((echoProcess buf bl wp d1 d2 c mix).1.getD j (0, 0)))) ∧
      (¬ 1/200 < mix →
        (echoProcess buf bl wp d1 d2 c mix).1 = c ∧
        (∀ j, j < c.length →
          (echoProcess buf bl wp d1 d2 c mix).2.1 ((wp + j) % bl) =
            c.getD j (0, 0))) := by
  unfold echoProcess
  simp only []
  by_cases hm : 1/200 < mix
  · rw [if_pos hm]
    simp only []
    refine ⟨trivial, fun _ => ⟨?_, ?_⟩, fun hcon => absurd hm hcon⟩
    · intro j hj
      rw [getD_range_map _ _ hj]
      rw [ringRead_eq buf _ hbl hn, ringRead_eq buf _ hbl hn]
      rw [getD_range_map _ _ hj, getD_range_map _ _ hj]
      rw [tap_index_eq wp d1 j hbl, tap_index_eq wp d2 j hbl]
    · intro j hj
      have hlen : ((List.range c.length).map (fun j =>
          fadd (c.getD j (0, 0))
            (fadd (fsmul mix ((ringRead buf bl
                ((((wp : ℤ) - d1).emod bl).toNat) c.length).getD j (0, 0)))
              (fsmul (mix * (7/10)) ((ringRead buf bl
                ((((wp : ℤ) - d2).emod bl).toNat) c.length).getD j (0, 0)))))
          |>.map (fun x => fsmul (11/20) x)).length ≤ bl := by
        simp only [List.length_map, List.length_range]
        exact hn
      have hj' : j < ((List.range c.length).map (fun j =>
          fadd (c.getD j (0, 0))
            (fadd (fsmul mix ((ringRead buf bl
                ((((wp : ℤ) - d1).emod bl).toNat) c.length).getD j (0, 0)))
              (fsmul (mix * (7/10)) ((ringRead buf bl
                ((((wp : ℤ) - d2).emod bl).toNat) c.length).getD j (0, 0)))))
          |>.map (fun x => fsmul (11/20) x)).length := by
        simp only [List.length_map, List.length_range]
        exact hj
      rw [ringWrite_getD buf _ hbl hwp hlen hj']
      rw [List.map_map]
      rw [getD_range_map _ _ hj, getD_range_map _ _ hj]
      rfl
  · rw [if_neg hm]
    refine ⟨rfl, fun hcon => absurd hcon hm, fun _ => ⟨rfl, ?_⟩⟩
    intro j hj
    exact ringWrite_getD buf c hbl hwp hn hj

/-- Concrete echo buffer for the C8 witness. -/
def wBuf : ℕ → Frame := fun _ => (1, 0)

/-- Concrete one-frame block for the C8 witness. -/
def wBlock : List Frame := [(1, 2)]

/-- Witness for C8 at a concrete tiny ring (capacity 3, write pointer 1,
taps 1 and 2, mix 1). -/
theorem c8_witness :
    (echoProcess wBuf 3 1 1 2 wBlock 1).2.2 = (1 + wBlock.length) % 3 ∧
      (1/200 < (1 : ℚ) →
        (∀ j, j < wBlock.length →
          (echoProcess wBuf 3 1 1 2 wBlock 1).1.getD j (0, 0) =
            fadd (wBlock.getD j (0, 0))
              (fadd (fsmul 1 (wBuf (((((1 : ℕ) : ℤ)) + j - ((1 : ℕ) : ℤ)).emod
                  ((3 : ℕ) : ℤ)).toNat))
                (fsmul ((1 : ℚ) * (7/10))
                  (wBuf (((((1 : ℕ) : ℤ)) + j - ((2 : ℕ) : ℤ)).emod
                    ((3 : ℕ) : ℤ)).toNat)))) ∧
        (∀ j, j < wBlock.length →
          (echoProcess wBuf 3 1 1 2 wBlock 1).2.1 ((1 + j) % 3) =
            fsmul (11/20)
              ((echoProcess wBuf 3 1 1 2 wBlock 1).1.getD j (0, 0)))) ∧
      (¬ 1/200 < (1 : ℚ) →
        (echoProcess wBuf 3 1 1 2 wBlock 1).1 = wBlock ∧
        (∀ j, j < wBlock.length →
          (echoProcess wBuf 3 1 1 2 wBlock 1).2.1 ((1 + j) % 3) =
            wBlock.getD j (0, 0))) :=
  c8_echo_reads_taps_then_writes wBuf 3 1 1 2 wBlock 1 (by decide) (by decide)
    (by decide)

/-! ## Identity path (C9) -/

/-- A convex combination of two in-range frames is in range. -/
theorem lerp_bounds (a b : Frame) (fr : ℚ) (h0 : 0 ≤ fr) (h1 : fr ≤ 1)
    (ha : -1 ≤ a.1 ∧ a.1 ≤ 1 ∧ -1 ≤ a.2 ∧ a.2 ≤ 1)
    (hb : -1 ≤ b.1 ∧ b.1 ≤ 1 ∧ -1 ≤ b.2 ∧ b.2 ≤ 1) :
    -1 ≤ (fadd (fsmul (1 - fr) a) (fsmul fr b)).1 ∧
      (fadd (fsmul (1 - fr) a) (fsmul fr b)).1 ≤ 1 ∧
      -1 ≤ (fadd (fsmul (1 - fr) a) (fsmul fr b)).2 ∧
      (fadd (fsmul (1 - fr) a) (fsmul fr b)).2 ≤ 1 := by
  obtain ⟨ha1, ha2, ha3, ha4⟩ := ha
  obtain ⟨hb1, hb2, hb3, hb4⟩ := hb
  simp only [fadd, fsmul]
  refine ⟨?_, ?_, ?_, ?_⟩ <;>
    nlinarith [mul_nonneg (by linarith : (0 : ℚ) ≤ 1 - fr)
        (by linarith : (0 : ℚ) ≤ a.1 + 1),
      mul_nonneg (by linarith : (0 : ℚ) ≤ 1 - fr)
        (by linarith : (0 : ℚ) ≤ 1 - a.1),
      mul_nonneg h0 (by linarith : (0 : ℚ) ≤ b.1 + 1),
      mul_nonneg h0 (by linarith : (0 : ℚ) ≤ 1 - b.1),
      mul_nonneg (by linarith : (0 : ℚ) ≤ 1 - fr)
        (by linarith : (0 : ℚ) ≤ a.2 + 1),
      mul_nonneg (by linarith : (0 : ℚ) ≤ 1 - fr)
        (by linarith : (0 : ℚ) ≤ 1 - a.2),
      mul_nonneg h0 (by linarith : (0 : ℚ) ≤ b.2 + 1),
      mul_nonneg h0 (by linarith : (0 : ℚ) ≤ 1 - b.2)]

/-- Every frame produced by the resampled read of an in-range buffer is in
range (the read is a convex combination of two buffer frames). -/
theorem readBlock_mem_bounds (data : ℕ → Frame) (n : ℕ) (pos rate : ℚ)
    (frames : ℕ)
    (hdata : ∀ i, -1 ≤ (data i).1 ∧ (data i).1 ≤ 1 ∧
      -1 ≤ (data i).2 ∧ (data i).2 ≤ 1) :
    ∀ y ∈ readBlock data n pos rate frames,
      -1 ≤ y.1 ∧ y.1 ≤ 1 ∧ -1 ≤ y.2 ∧ y.2 ≤ 1 := by
  intro y hy
  unfold readBlock at hy
  rcases List.mem_map.mp hy with ⟨i, _, rfl⟩
  simp only []
  apply lerp_bounds
  · have := Int.floor_le (qmod ((i : ℚ) * rate + pos) (n : ℚ))
    linarith
  · have := Int.lt_floor_add_one (qmod ((i : ℚ) * rate + pos) (n : ℚ))
    linarith
  · exact hdata _
  · exact hdata _

/-- Mapping a function that fixes every member of a list is the identity. -/
theorem map_id_of_mem {α : Type} (l : List α) (f : α → α)
    (h : ∀ a ∈ l, f a = a) : l.map f = l := by
  induction l with
  | nil => rfl
  | cons x xs ih =>
      rw [List.map_cons, h x (by simp), ih (fun a ha => h a (by simp [ha]))]

/-- C9: with the snapshot pitch = speed = 1 (rate 1), reverse off,
cutoff 1 (filter bypassed), distortion 0, echoMix 0, pan 0 and volume 1,
the rendered output block equals the raw samples read at the current
position; when the position is a whole frame index the read itself is the
plain buffer contents from that index on. -/
theorem c9_identity_path (tanhF powF : ℚ → ℚ)
    (sosfiltF : ℚ → List ℚ → List Frame → List ℚ × List Frame)
    (s : EngineState) (frames : ℕ) (hp : s.playing = true)
    (hpitch : s.pitch = 1) (hspd : s.speedMult = 1) (hrev : s.reverse = false)
    (hfc : s.cutoff = 1) (hdi : s.dist = 0) (hem : s.echoMix = 0)
    (hpan : s.pan = 0) (hvol : s.volume = 1)
    (hdata : ∀ i, -1 ≤ (s.data i).1 ∧ (s.data i).1 ≤ 1 ∧
      -1 ≤ (s.data i).2 ∧ (s.data i).2 ≤ 1) :
    (cb tanhF powF sosfiltF s frames).1 =
        readBlock s.data s.n s.pos 1 frames ∧
      (∀ k : ℕ, 0 < s.n → s.pos = (k : ℚ) →
        readBlock s.data s.n s.pos 1 frames =
          (List.range frames).map (fun i => s.data ((k + i) % s.n))) := by
  constructor
  · have hq1 : qclip (1 : ℚ) (1/4) 4 = 1 :=
      qclip_eq_self (by norm_num) (by norm_num)
    have hq2 : qclip (1 : ℚ) (1/4) 3 = 1 :=
      qclip_eq_self (by norm_num) (by norm_num)
    have hq3 : qclip (0 : ℚ) (-1) 1 = 0 :=
      qclip_eq_self (by norm_num) (by norm_num)
    have hsnap : snapshot s = ⟨1, 1, 1, 1, 0, 0, false, 0⟩ := by
      unfold snapshot
      rw [hpitch, hspd, hrev, hfc, hdi, hem, hpan, hvol, hq1, hq2, hq3]
    have hfilt : ∀ c, filterStage powF sosfiltF s.filt 1 c =
        (c, { s.filt with lastNorm := -1, ziL := none, ziR := none }) := by
      intro c
      unfold filterStage
      rw [if_neg (by norm_num)]
    have hecho : ∀ c,
        (echoProcess s.echoBuf s.echoBlen s.echoWp d1Len d2Len c 0).1 = c := by
      intro c
      unfold echoProcess
      simp only []
      rw [if_neg (by norm_num)]
    unfold cb
    rw [hp, if_neg (show ¬ (true = false) by simp), hsnap]
    simp only []
    have hrate : (1 : ℚ) * 1 * (if (false : Bool) = true then (-1 : ℚ) else 1)
        = 1 := by norm_num
    rw [hrate, hfilt]
    simp only []
    rw [if_neg (show ¬ ((1 : ℚ)/100 < 0) by norm_num), hecho]
    rw [if_neg (show ¬ ((1 : ℚ)/100 < |(0 : ℚ)|) by norm_num)]
    apply map_id_of_mem
    intro y hy
    obtain ⟨b1, b2, b3, b4⟩ :=
      readBlock_mem_bounds s.data s.n s.pos 1 frames hdata y hy
    rw [mul_one, mul_one, qclip_eq_self b1 b2, qclip_eq_self b3 b4]
  · intro k hn hk
    unfold readBlock
    apply List.map_congr_left
    intro i hi
    rw [List.mem_range] at hi
    simp only []
    rw [hk]
    have hcast : (i : ℚ) * 1 + (k : ℚ) = ((i + k : ℕ) : ℚ) := by
      push_cast
      ring
    rw [hcast, qmod_natCast (i + k) hn, Int.floor_natCast, Int.toNat_natCast,
      Nat.mod_mod_of_dvd _ dvd_rfl, Int.cast_natCast, sub_self]
    simp [fadd, fsmul, Nat.add_comm]

/-- Witness for C9 at the concrete identity-parameter engine. -/
theorem c9_witness :
    (cb id id (fun _ xs zi => (xs, zi)) wPlaying 2).1 =
        readBlock wPlaying.data wPlaying.n wPlaying.pos 1 2 ∧
      (∀ k : ℕ, 0 < wPlaying.n → wPlaying.pos = (k : ℚ) →
        readBlock wPlaying.data wPlaying.n wPlaying.pos 1 2 =
          (List.range 2).map (fun i => wPlaying.data ((k + i) % wPlaying.n))) :=
  c9_identity_path id id (fun _ xs zi => (xs, zi)) wPlaying 2 rfl rfl rfl rfl
    rfl rfl rfl rfl rfl
    (fun _ => ⟨by norm_num [wPlaying], by norm_num [wPlaying],
      by norm_num [wPlaying], by norm_num [wPlaying]⟩)
